import Mathlib

/-!
Verification of the MarketGuru web application's core search/fusion logic,
shallowly embedded from `backend/product_search.py`, `backend/app.py` and
`backend/enhanced_detection.py`.  Python strings are modelled as Lean
`String`s (ASCII case conversion), Python `float` prices and confidences as
exact rationals `ℚ`, and Python `set`s of title words as `Finset String`.
-/

namespace MarketGuru

/-- ASCII lowercasing, modelling Python `str.lower()` on the ASCII titles and
labels this code handles. -/
def pyLower (s : String) : String := String.mk (s.toList.map Char.toLower)

/-- ASCII uppercasing, modelling Python `str.upper()`. -/
def pyUpper (s : String) : String := String.mk (s.toList.map Char.toUpper)

/-- Python `str.title()` restricted to the single lowercase ASCII words it is
applied to in the source (the fixed `known_brands` entries): first character
uppercased, the rest lowercased. -/
def pyTitle (s : String) : String :=
  match s.toList with
  | [] => ""
  | c :: cs => String.mk (c.toUpper :: cs.map Char.toLower)

/-- A regex `\w` character: alphanumeric or underscore. -/
def isWordChar (c : Char) : Bool := c.isAlphanum || c == '_'

/-- Splits a character list into the maximal runs of non-whitespace
characters (accumulator holds the current run reversed). -/
def splitWordsAux : List Char → List Char → List String
  | [], acc => if acc.isEmpty then [] else [String.mk acc.reverse]
  | c :: cs, acc =>
    if c.isWhitespace then
      if acc.isEmpty then splitWordsAux cs [] else String.mk acc.reverse :: splitWordsAux cs []
    else splitWordsAux cs (c :: acc)

/-- Python `str.split()` with no separator: split on whitespace runs and drop
empty fragments. -/
def splitWords (s : String) : List String := splitWordsAux s.toList []

/-- `startsWithSeg n h` is true when list `n` is an initial segment of `h`. -/
def startsWithSeg : List Char → List Char → Bool
  | [], _ => true
  | _ :: _, [] => false
  | a :: as, b :: bs => a == b && startsWithSeg as bs

/-- `segIn n h` is true when `n` occurs contiguously inside `h`. -/
def segIn (n : List Char) : List Char → Bool
  | [] => n.isEmpty
  | c :: t => startsWithSeg n (c :: t) || segIn n t

/-- Python `needle in hay` on strings: contiguous substring test. -/
def isSegmentOf (needle hay : String) : Bool := segIn needle.toList hay.toList

/-- Maximal runs of `\w` characters of a character list (accumulator holds the
current run reversed). -/
def wordRunsAux : List Char → List Char → List String
  | [], acc => if acc.isEmpty then [] else [String.mk acc.reverse]
  | c :: cs, acc =>
    if isWordChar c then wordRunsAux cs (c :: acc)
    else if acc.isEmpty then wordRunsAux cs []
    else String.mk acc.reverse :: wordRunsAux cs []

/-- Maximal runs of word characters in a string; `\b`-delimited tokens. -/
def wordRuns (s : String) : List String := wordRunsAux s.toList []

/-! ## `product_search.py`: listings and deduplication -/

/-- The normalized listing shape produced by every retailer adapter in
`product_search.py` (the keys of the emitted dicts). -/
structure Listing where
  title : String
  price : String
  image_url : String
  product_link : String
  rating : String
  reviews : String
  retailer : String
deriving DecidableEq

/-- `re.sub(r'[^\w\s]', '', product['title'].lower())` from
`remove_duplicates`: lowercase, then delete characters that are neither word
characters nor whitespace. -/
def normalizeTitle (s : String) : String :=
  String.mk ((pyLower s).toList.filter (fun c => isWordChar c || c.isWhitespace))

/-- `set(normalized_title.split())`: the normalized word set of a title. -/
def titleWords (s : String) : Finset String := (splitWords (normalizeTitle s)).toFinset

/-- The overlap score `len(title_words.intersection(seen_words)) /
max(len(title_words), 1)` of `remove_duplicates`, with Python's float
division modelled as exact rational division.  `later` is the word set of the
listing currently examined, `seen` that of an earlier kept listing. -/
def dupScore (later seen : Finset String) : ℚ :=
  ((later ∩ seen).card : ℚ) / ((max later.card 1 : ℕ) : ℚ)

/-- The inner `for seen_title in seen_titles` loop of `remove_duplicates`:
the current listing's word set scores above `0.6` against some already kept
normalized title. -/
def isDuplicateAgainst (tws : Finset String) (seen : List String) : Bool :=
  seen.any (fun st => decide ((6 : ℚ)/10 < dupScore tws (splitWords st).toFinset))

/-- The main loop of `remove_duplicates`, with `seen` the normalized titles of
the listings kept so far (Python keeps them in a `set`; only membership of the
derived word sets is ever observed, so a list is an equivalent model). -/
def removeDupAux : List Listing → List String → List Listing
  | [], _ => []
  | p :: rest, seen =>
    let nt := normalizeTitle p.title
    if isDuplicateAgainst (splitWords nt).toFinset seen then removeDupAux rest seen
    else p :: removeDupAux rest (seen ++ [nt])

/-- `ProductSearchEngine.remove_duplicates` from `product_search.py`. -/
def remove_duplicates (products : List Listing) : List Listing := removeDupAux products []

/-- Specification-side deduplication, written from the spec's words: a later
listing is dropped exactly when the overlap between its normalized title word
set and the word set of some earlier **kept** listing, divided by
`max(|later listing's word set|, 1)`, strictly exceeds `0.6`; only the
first-seen listing of a duplicate cluster is retained.  The state is the list
of kept word sets. -/
def dedupSpecAux : List Listing → List (Finset String) → List Listing
  | [], _ => []
  | p :: rest, kept =>
    let w := titleWords p.title
    if kept.any (fun s => decide ((6 : ℚ)/10 < dupScore w s)) then dedupSpecAux rest kept
    else p :: dedupSpecAux rest (kept ++ [w])

/-- Specification-side entry point for deduplication. -/
def dedupSpec (products : List Listing) : List Listing := dedupSpecAux products []

/-- A listing with only a title set, as used in concrete dedup examples. -/
def mkTitled (t : String) : Listing := ⟨t, "N/A", "", "", "N/A", "N/A", "Amazon India"⟩

theorem anyOfMap {α β : Type} (l : List α) (f : α → β) (p : β → Bool) :
    (l.map f).any p = l.any (fun a => p (f a)) := by
  induction l with
  | nil => rfl
  | cons a t ih => simp [ih]

theorem removeDupAux_eq_spec (ps : List Listing) :
    ∀ seen : List String,
      removeDupAux ps seen = dedupSpecAux ps (seen.map (fun st => (splitWords st).toFinset)) := by
  induction ps with
  | nil => intro seen; rfl
  | cons p rest ih =>
    intro seen
    simp only [removeDupAux, dedupSpecAux]
    have hany : isDuplicateAgainst (splitWords (normalizeTitle p.title)).toFinset seen
        = (seen.map (fun st => (splitWords st).toFinset)).any
            (fun s => decide ((6 : ℚ)/10 < dupScore (titleWords p.title) s)) := by
      rw [anyOfMap]; rfl
    rw [hany]
    by_cases h : ((seen.map (fun st => (splitWords st).toFinset)).any
        (fun s => decide ((6 : ℚ)/10 < dupScore (titleWords p.title) s))) = true
    · rw [if_pos h, if_pos h, ih seen]
    · rw [if_neg h, if_neg h, ih (seen ++ [normalizeTitle p.title])]
      simp [titleWords]

/-- The rational threshold test of `remove_duplicates` is equivalent to an
integer cross-multiplication (the denominator `max |later|, 1` is positive). -/
theorem dupCond_iff (a b : Finset String) :
    ((6 : ℚ)/10 < dupScore a b) ↔ 6 * max a.card 1 < 10 * (a ∩ b).card := by
  have hd : (0 : ℚ) < ((max a.card 1 : ℕ) : ℚ) := by
    have : (1 : ℕ) ≤ max a.card 1 := le_max_right _ _
    exact_mod_cast Nat.lt_of_lt_of_le Nat.zero_lt_one this
  rw [dupScore, div_lt_div_iff₀ (by norm_num) hd]
  constructor
  · intro h
    have h' : (6 * max a.card 1 : ℕ) < ((a ∩ b).card * 10 : ℕ) := by exact_mod_cast h
    omega
  · intro h
    have h' : (6 * max a.card 1 : ℕ) < ((a ∩ b).card * 10 : ℕ) := by omega
    exact_mod_cast h'

/-- Executable form of the duplicate test, with the rational comparison
replaced by the equivalent integer comparison. -/
def isDuplicateAgainstNat (tws : Finset String) (seen : List String) : Bool :=
  seen.any (fun st => decide (6 * max tws.card 1 < 10 * (tws ∩ (splitWords st).toFinset).card))

theorem isDuplicateAgainst_eq_nat (tws : Finset String) (seen : List String) :
    isDuplicateAgainst tws seen = isDuplicateAgainstNat tws seen := by
  unfold isDuplicateAgainst isDuplicateAgainstNat
  congr 1
  funext st
  rw [decide_eq_decide]
  exact dupCond_iff _ _

/-- Executable form of the deduplication loop. -/
def removeDupNatAux : List Listing → List String → List Listing
  | [], _ => []
  | p :: rest, seen =>
    let nt := normalizeTitle p.title
    if isDuplicateAgainstNat (splitWords nt).toFinset seen then removeDupNatAux rest seen
    else p :: removeDupNatAux rest (seen ++ [nt])

theorem removeDupAux_eq_nat (ps : List Listing) :
    ∀ seen, removeDupAux ps seen = removeDupNatAux ps seen := by
  induction ps with
  | nil => intro seen; rfl
  | cons p rest ih =>
    intro seen
    simp only [removeDupAux, removeDupNatAux, isDuplicateAgainst_eq_nat]
    by_cases h : isDuplicateAgainstNat (splitWords (normalizeTitle p.title)).toFinset seen = true
    · rw [if_pos h, if_pos h, ih]
    · rw [if_neg h, if_neg h, ih]

/-- C1.  The aggregator's deduplication drops a later listing exactly when its
normalized title word set overlaps an earlier kept listing's word set by
strictly more than `0.6` of the later listing's word count (`dedupSpec` is
that rule verbatim); a listing sharing exactly 3 of its 5 words (ratio `0.6`)
with the kept listing is kept, one sharing 3 of 4 (ratio `0.75`) is dropped,
and only the first-seen listing of a cluster is retained. -/
theorem dedup_matches_overlap_spec :
    (∀ ps : List Listing, remove_duplicates ps = dedupSpec ps)
    ∧ remove_duplicates [mkTitled "alpha beta gamma", mkTitled "alpha beta gamma delta epsilon"]
        = [mkTitled "alpha beta gamma", mkTitled "alpha beta gamma delta epsilon"]
    ∧ remove_duplicates [mkTitled "alpha beta gamma", mkTitled "alpha beta gamma delta"]
        = [mkTitled "alpha beta gamma"] := by
  refine ⟨fun ps => removeDupAux_eq_spec ps [], ?_, ?_⟩
  · rw [remove_duplicates, removeDupAux_eq_nat]; decide
  · rw [remove_duplicates, removeDupAux_eq_nat]; decide

theorem removeDupAux_idem (ps : List Listing) :
    ∀ seen, removeDupAux (removeDupAux ps seen) seen = removeDupAux ps seen := by
  induction ps with
  | nil => intro seen; rfl
  | cons p rest ih =>
    intro seen
    simp only [removeDupAux]
    by_cases h : isDuplicateAgainst (splitWords (normalizeTitle p.title)).toFinset seen = true
    · rw [if_pos h, ih]
    · rw [if_neg h]
      simp only [removeDupAux, if_neg h]
      rw [ih]

/-- C9.  Deduplication is idempotent: applying `remove_duplicates` to its own
output returns that output unchanged. -/
theorem dedup_idempotent (ps : List Listing) :
    remove_duplicates (remove_duplicates ps) = remove_duplicates ps :=
  removeDupAux_idem ps []

theorem dupScore_empty (s : Finset String) : dupScore ∅ s = 0 := by
  simp [dupScore]

theorem isDuplicateAgainst_empty (seen : List String) :
    isDuplicateAgainst ∅ seen = false := by
  unfold isDuplicateAgainst
  rw [List.any_eq_false]
  intro st _
  simp [dupScore_empty]
  norm_num

theorem removeDupAux_keeps_empty (ps : List Listing) :
    ∀ seen, (removeDupAux ps seen).filter (fun p => decide (titleWords p.title = ∅))
      = ps.filter (fun p => decide (titleWords p.title = ∅)) := by
  induction ps with
  | nil => intro seen; rfl
  | cons p rest ih =>
    intro seen
    by_cases hw : titleWords p.title = ∅
    · have hdup : isDuplicateAgainst (splitWords (normalizeTitle p.title)).toFinset seen = false := by
        have : (splitWords (normalizeTitle p.title)).toFinset = (∅ : Finset String) := hw
        rw [this, isDuplicateAgainst_empty]
      simp only [removeDupAux, hdup, Bool.false_eq_true, if_false]
      rw [List.filter_cons, List.filter_cons]
      simp only [hw, decide_True]
      rw [ih]
    · simp only [removeDupAux]
      by_cases h : isDuplicateAgainst (splitWords (normalizeTitle p.title)).toFinset seen = true
      · rw [if_pos h, ih, List.filter_cons]
        simp [hw]
      · rw [if_neg h, List.filter_cons, List.filter_cons]
        simp only [hw, decide_False]
        rw [ih]

/-- C10.  Deduplication is total: the overlap denominator is
`max(|later word set|, 1)`, so a listing whose title normalizes to an empty
word set scores `0` against every earlier kept listing and is always kept —
the empty-word-set listings of the input survive deduplication exactly. -/
theorem dedup_total_empty_wordset_kept :
    (∀ s : Finset String, dupScore ∅ s = 0)
    ∧ (∀ w : Finset String, (0 : ℚ) < ((max w.card 1 : ℕ) : ℚ))
    ∧ (∀ ps : List Listing,
        (remove_duplicates ps).filter (fun p => decide (titleWords p.title = ∅))
          = ps.filter (fun p => decide (titleWords p.title = ∅))) := by
  refine ⟨dupScore_empty, ?_, fun ps => removeDupAux_keeps_empty ps []⟩
  intro w
  have : (1 : ℕ) ≤ max w.card 1 := le_max_right _ _
  exact_mod_cast Nat.lt_of_lt_of_le Nat.zero_lt_one this

/-! ## `product_search.py`: retailer adapters and the aggregator

Each adapter fetches a search page and parses per-result containers; the
fetching/parsing machinery (`requests`, `BeautifulSoup`, selenium) is outside
the source's control, so an adapter's input is modelled as the list of
per-result field values its selectors extracted (`title` defaults to `"N/A"`
when no selector matched, `image_url` to `""`), wrapped in `Except` to model
a raised transport/parse exception caught by the adapter's `try/except`. -/

/-- A parsed Amazon search-result container: the field values bound by the
per-result extraction block of `search_amazon_products`. -/
structure AmazonParsed where
  title : String
  price : String
  image_url : String
  product_link : String
  rating : String
  reviews : String
deriving DecidableEq

/-- A parsed Flipkart container from `search_flipkart_products`. -/
structure FlipkartParsed where
  title : String
  price : String
  image_url : String
  product_link : String
  rating : String
deriving DecidableEq

/-- A parsed Google Shopping element from `search_google_shopping`. -/
structure GoogleParsed where
  title : String
  price : String
  image_url : String
  product_link : String
deriving DecidableEq

/-- The listing dict appended by `search_amazon_products` (a `"N/A"` title is
replaced by the placeholder name `"Amazon Product"`). -/
def amazonListingOf (r : AmazonParsed) : Listing :=
  ⟨if r.title = "N/A" then "Amazon Product" else r.title,
    r.price, r.image_url, r.product_link, r.rating, r.reviews, "Amazon India"⟩

/-- The result loop of `search_amazon_products`: the first `maxResults`
containers, each emitted when `title != "N/A" or image_url`. -/
def amazonResults (rs : List AmazonParsed) (maxResults : Nat) : List Listing :=
  (rs.take maxResults).foldl
    (fun acc r => if r.title ≠ "N/A" ∨ r.image_url ≠ "" then acc ++ [amazonListingOf r] else acc) []

/-- The listing dict appended by `search_flipkart_products`. -/
def flipkartListingOf (r : FlipkartParsed) : Listing :=
  ⟨r.title, r.price, r.image_url, r.product_link, r.rating, "N/A", "Flipkart"⟩

/-- The result loop of `search_flipkart_products`: the first `maxResults`
containers, each emitted when `title != "N/A" and image_url`. -/
def flipkartResults (rs : List FlipkartParsed) (maxResults : Nat) : List Listing :=
  (rs.take maxResults).foldl
    (fun acc r => if r.title ≠ "N/A" ∧ r.image_url ≠ "" then acc ++ [flipkartListingOf r] else acc) []

/-- The listing dict appended by `search_google_shopping`. -/
def googleListingOf (r : GoogleParsed) : Listing :=
  ⟨r.title, r.price, r.image_url, r.product_link, "N/A", "N/A", "Google Shopping"⟩

/-- The element loop of `search_google_shopping`: the first `maxResults`
elements, each emitted when `title != "N/A" and image_url`. -/
def googleResults (rs : List GoogleParsed) (maxResults : Nat) : List Listing :=
  (rs.take maxResults).foldl
    (fun acc r => if r.title ≠ "N/A" ∧ r.image_url ≠ "" then acc ++ [googleListingOf r] else acc) []

/-- `ProductSearchEngine.search_amazon_products`: the whole body is wrapped in
`try/except` returning `[]` on any failure of the fetch/parse. -/
def search_amazon_products (fetch : Except String (List AmazonParsed)) (maxResults : Nat) :
    List Listing :=
  match fetch with
  | .error _ => []
  | .ok rs => amazonResults rs maxResults

/-- `ProductSearchEngine.search_flipkart_products`, failures yield `[]`. -/
def search_flipkart_products (fetch : Except String (List FlipkartParsed)) (maxResults : Nat) :
    List Listing :=
  match fetch with
  | .error _ => []
  | .ok rs => flipkartResults rs maxResults

/-- `ProductSearchEngine.search_google_shopping`, failures (including a driver
that could not be set up) yield `[]`. -/
def search_google_shopping (fetch : Except String (List GoogleParsed)) (maxResults : Nat) :
    List Listing :=
  match fetch with
  | .error _ => []
  | .ok rs => googleResults rs maxResults

/-- `ProductSearchEngine.search_all_platforms`: extend with Amazon, then
Flipkart, then Google Shopping results, then `remove_duplicates`. -/
def search_all_platforms (fa : Except String (List AmazonParsed))
    (ff : Except String (List FlipkartParsed)) (fg : Except String (List GoogleParsed))
    (maxResultsPerPlatform : Nat) : List Listing :=
  remove_duplicates
    (search_amazon_products fa maxResultsPerPlatform
      ++ search_flipkart_products ff maxResultsPerPlatform
      ++ search_google_shopping fg maxResultsPerPlatform)

theorem foldl_emit_eq_filter_map {α : Type} (cond : α → Prop) [DecidablePred cond]
    (mk : α → Listing) (rs : List α) :
    ∀ acc : List Listing,
      rs.foldl (fun acc r => if cond r then acc ++ [mk r] else acc) acc
        = acc ++ (rs.filter (fun r => decide (cond r))).map mk := by
  induction rs with
  | nil => intro acc; simp
  | cons r rest ih =>
    intro acc
    rw [List.foldl_cons, List.filter_cons]
    by_cases h : cond r
    · simp only [if_pos h, decide_eq_true_eq, h, if_true, ih]
      simp
    · simp only [if_neg h, decide_eq_true_eq, h, if_false, ih]

/-- C4 (amended).  Within the first `maxResults` parsed containers, the Amazon
adapter emits a listing exactly for those with a non-placeholder title **or**
a non-empty image URL, while the Flipkart and Google Shopping adapters emit a
listing exactly for those with a non-placeholder title **and** a non-empty
image URL. -/
theorem adapter_emission_conditions :
    (∀ (rs : List AmazonParsed) (n : Nat),
      amazonResults rs n
        = ((rs.take n).filter (fun r => decide (r.title ≠ "N/A" ∨ r.image_url ≠ ""))).map amazonListingOf)
    ∧ (∀ (rs : List FlipkartParsed) (n : Nat),
      flipkartResults rs n
        = ((rs.take n).filter (fun r => decide (r.title ≠ "N/A" ∧ r.image_url ≠ ""))).map flipkartListingOf)
    ∧ (∀ (rs : List GoogleParsed) (n : Nat),
      googleResults rs n
        = ((rs.take n).filter (fun r => decide (r.title ≠ "N/A" ∧ r.image_url ≠ ""))).map googleListingOf) := by
  refine ⟨fun rs n => ?_, fun rs n => ?_, fun rs n => ?_⟩
  · rw [amazonResults, foldl_emit_eq_filter_map]; simp
  · rw [flipkartResults, foldl_emit_eq_filter_map]; simp
  · rw [googleResults, foldl_emit_eq_filter_map]; simp

/-- C4 counterexample.  A Flipkart container with a real (non-placeholder)
title but an empty image URL is dropped, although the claim's condition
"non-placeholder title or non-empty image URL" holds for it — the Flipkart
and Google adapters require both, not either. -/
theorem adapter_emission_or_counterexample :
    flipkartResults [⟨"Galaxy Phone", "999", "", "", "4.2"⟩] 5 = []
    ∧ ((⟨"Galaxy Phone", "999", "", "", "4.2"⟩ : FlipkartParsed).title ≠ "N/A"
        ∨ (⟨"Galaxy Phone", "999", "", "", "4.2"⟩ : FlipkartParsed).image_url ≠ "") := by
  constructor
  · decide
  · left; decide

/-- C5.  Each adapter converts a failure (a raised exception caught by its
`try/except`) into an empty contribution, and the aggregate over any mix of
failing and succeeding adapters equals the deduplicated concatenation of only
the successful adapters' listings — shown both for a failing middle adapter
and for the general output shape. -/
theorem adapters_never_fail_aggregate :
    (∀ (e : String) (n : Nat), search_amazon_products (Except.error e) n = [])
    ∧ (∀ (e : String) (n : Nat), search_flipkart_products (Except.error e) n = [])
    ∧ (∀ (e : String) (n : Nat), search_google_shopping (Except.error e) n = [])
    ∧ (∀ (rsA : List AmazonParsed) (rsG : List GoogleParsed) (e : String) (n : Nat),
        search_all_platforms (Except.ok rsA) (Except.error e) (Except.ok rsG) n
          = remove_duplicates (amazonResults rsA n ++ googleResults rsG n))
    ∧ (∀ (fa : Except String (List AmazonParsed)) (ff : Except String (List FlipkartParsed))
        (fg : Except String (List GoogleParsed)) (n : Nat),
        search_all_platforms fa ff fg n
          = remove_duplicates (search_amazon_products fa n ++ search_flipkart_products ff n
              ++ search_google_shopping fg n)) := by
  refine ⟨fun e n => rfl, fun e n => rfl, fun e n => rfl, fun rsA rsG e n => ?_, fun fa ff fg n => rfl⟩
  simp [search_all_platforms, search_amazon_products, search_flipkart_products,
    search_google_shopping]

/-! ## `app.py`: the `/api/price` price analysis

`scrape_amazon_india` / `scrape_flipkart` return dicts with a `retailer`, a
`title` and a `price` that is `None` when scraping or parsing failed; Python
floats are modelled as exact rationals. -/

/-- A scraped price result as collected in `price_data` by `api_price`. -/
structure PriceData where
  retailer : String
  title : String
  price : Option ℚ
deriving DecidableEq

/-- The `analysis` dict computed by `api_price` (with `price_range` flattened
into `range_min` / `range_max`); `none` models the empty `analysis = {}`. -/
structure PriceAnalysis where
  best_price : ℚ
  best_retailer : String
  range_min : ℚ
  range_max : ℚ
  savings : ℚ
deriving DecidableEq

/-- The price-analysis block of `api_price` in `app.py`: filter to results
with a parsed price; with fewer than two, the analysis stays empty; otherwise
take `min`/`max` of the prices, the retailer of the first filtered result
whose price equals the minimum, and `max - min if max > min else 0`. -/
def api_price_analysis (price_data : List PriceData) : Option PriceAnalysis :=
  let valid := price_data.filter (fun d => d.price.isSome)
  if valid.length < 2 then none
  else
    match valid.filterMap (fun d => d.price) with
    | [] => none
    | p :: ps =>
      let min_price := ps.foldl min p
      let max_price := ps.foldl max p
      let best_retailer :=
        match valid.find? (fun d => d.price == some min_price) with
        | some d => d.retailer
        | none => ""
      some ⟨min_price, best_retailer, min_price, max_price,
        if min_price < max_price then max_price - min_price else 0⟩

theorem foldl_min_mem (ps : List ℚ) : ∀ p : ℚ, ps.foldl min p ∈ p :: ps := by
  induction ps with
  | nil => intro p; exact List.mem_singleton.mpr rfl
  | cons c cs ih =>
    intro p
    rw [List.foldl_cons]
    rcases List.mem_cons.mp (ih (min p c)) with h | h
    · rcases min_choice p c with hm | hm
      · rw [h, hm]; exact List.mem_cons_self _ _
      · rw [h, hm]; exact List.mem_cons_of_mem _ (List.mem_cons_self _ _)
    · exact List.mem_cons_of_mem _ (List.mem_cons_of_mem _ h)

theorem foldl_min_le (ps : List ℚ) : ∀ p q : ℚ, q ∈ p :: ps → ps.foldl min p ≤ q := by
  induction ps with
  | nil =>
    intro p q hq
    rw [List.mem_singleton.mp hq]
    exact le_refl _
  | cons c cs ih =>
    intro p q hq
    rw [List.foldl_cons]
    rcases List.mem_cons.mp hq with h | h
    · calc cs.foldl min (min p c) ≤ min p c := ih _ _ (List.mem_cons_self _ _)
        _ ≤ p := min_le_left _ _
        _ = q := h.symm
    · rcases List.mem_cons.mp h with h2 | h2
      · calc cs.foldl min (min p c) ≤ min p c := ih _ _ (List.mem_cons_self _ _)
          _ ≤ c := min_le_right _ _
          _ = q := h2.symm
      · exact ih _ _ (List.mem_cons_of_mem _ h2)

theorem foldl_max_mem (ps : List ℚ) : ∀ p : ℚ, ps.foldl max p ∈ p :: ps := by
  induction ps with
  | nil => intro p; exact List.mem_singleton.mpr rfl
  | cons c cs ih =>
    intro p
    rw [List.foldl_cons]
    rcases List.mem_cons.mp (ih (max p c)) with h | h
    · rcases max_choice p c with hm | hm
      · rw [h, hm]; exact List.mem_cons_self _ _
      · rw [h, hm]; exact List.mem_cons_of_mem _ (List.mem_cons_self _ _)
    · exact List.mem_cons_of_mem _ (List.mem_cons_of_mem _ h)

theorem le_foldl_max (ps : List ℚ) : ∀ p q : ℚ, q ∈ p :: ps → q ≤ ps.foldl max p := by
  induction ps with
  | nil =>
    intro p q hq
    rw [List.mem_singleton.mp hq]
    exact le_refl _
  | cons c cs ih =>
    intro p q hq
    rw [List.foldl_cons]
    rcases List.mem_cons.mp hq with h | h
    · calc q = p := h
        _ ≤ max p c := le_max_left _ _
        _ ≤ cs.foldl max (max p c) := ih _ _ (List.mem_cons_self _ _)
    · rcases List.mem_cons.mp h with h2 | h2
      · calc q = c := h2
          _ ≤ max p c := le_max_right _ _
          _ ≤ cs.foldl max (max p c) := ih _ _ (List.mem_cons_self _ _)
      · exact ih _ _ (List.mem_cons_of_mem _ h2)

theorem filterMap_price_of_filter (l : List PriceData) :
    (l.filter (fun d => d.price.isSome)).filterMap (fun d => d.price)
      = l.filterMap (fun d => d.price) := by
  induction l with
  | nil => rfl
  | cons d rest ih =>
    rw [List.filter_cons]
    cases hp : d.price with
    | none => simp [hp, List.filterMap_cons, ih]
    | some p => simp [hp, List.filterMap_cons, ih]

theorem length_filterMap_price (l : List PriceData) :
    (l.filter (fun d => d.price.isSome)).length
      = ((l.filter (fun d => d.price.isSome)).filterMap (fun d => d.price)).length := by
  induction l with
  | nil => rfl
  | cons d rest ih =>
    rw [List.filter_cons]
    cases hp : d.price with
    | none => simpa [hp] using ih
    | some p => simpa [hp, List.filterMap_cons] using ih

theorem find?_price_of_filter (l : List PriceData) (m : ℚ) :
    (l.filter (fun d => d.price.isSome)).find? (fun d => d.price == some m)
      = l.find? (fun d => d.price == some m) := by
  induction l with
  | nil => rfl
  | cons d rest ih =>
    rw [List.filter_cons]
    cases hp : d.price with
    | none => simp [hp, List.find?_cons, ih]
    | some p =>
      simp only [hp, Option.isSome_some, if_true, List.find?_cons]
      by_cases he : (some p == some m) = true
      · simp [he]
      · simp only [Bool.not_eq_true] at he
        simp [he, ih]

/-- C2.  The price analysis is empty exactly when fewer than two scraped
results carry a parsed numeric price; otherwise `best_price` is the minimum
price, the range is `[min, max]` over all parsed prices, `savings = max -
min` (`0` when they coincide), and `best_retailer` is the retailer of the
first result in input order whose price equals the minimum. -/
theorem api_price_analysis_spec (pd : List PriceData) :
    (api_price_analysis pd = none ↔ (pd.filter (fun d => d.price.isSome)).length < 2)
    ∧ (∀ a : PriceAnalysis, api_price_analysis pd = some a →
        a.best_price ∈ pd.filterMap (fun d => d.price)
        ∧ (∀ q ∈ pd.filterMap (fun d => d.price), a.best_price ≤ q)
        ∧ a.range_min = a.best_price
        ∧ a.range_max ∈ pd.filterMap (fun d => d.price)
        ∧ (∀ q ∈ pd.filterMap (fun d => d.price), q ≤ a.range_max)
        ∧ a.savings = a.range_max - a.best_price
        ∧ ∃ d : PriceData, pd.find? (fun x => x.price == some a.best_price) = some d
            ∧ a.best_retailer = d.retailer) := by
  constructor
  · unfold api_price_analysis
    by_cases hlen : (pd.filter (fun d => d.price.isSome)).length < 2
    · simp [hlen]
    · simp only [hlen, if_false, iff_false]
      cases hm : (pd.filter (fun d => d.price.isSome)).filterMap (fun d => d.price) with
      | nil =>
        exfalso
        rw [length_filterMap_price, hm] at hlen
        exact hlen (by norm_num)
      | cons p ps => simp
  · intro a ha
    unfold api_price_analysis at ha
    by_cases hlen : (pd.filter (fun d => d.price.isSome)).length < 2
    · simp [hlen] at ha
    · simp only [hlen, if_false] at ha
      cases hm : (pd.filter (fun d => d.price.isSome)).filterMap (fun d => d.price) with
      | nil => rw [hm] at ha; simp at ha
      | cons p ps =>
        rw [hm] at ha
        simp only [Option.some.injEq] at ha
        have hprices : pd.filterMap (fun d => d.price) = p :: ps := by
          rw [← filterMap_price_of_filter, hm]
        have hminmem : ps.foldl min p ∈ pd.filterMap (fun d => d.price) := by
          rw [hprices]; exact foldl_min_mem ps p
        have hmaxmem : ps.foldl max p ∈ pd.filterMap (fun d => d.price) := by
          rw [hprices]; exact foldl_max_mem ps p
        have hfind : ∃ d : PriceData,
            pd.find? (fun x => x.price == some (ps.foldl min p)) = some d := by
          rw [← find?_price_of_filter]
          cases hf : (pd.filter (fun d => d.price.isSome)).find?
              (fun x => x.price == some (ps.foldl min p)) with
          | some d => exact ⟨d, rfl⟩
          | none =>
            exfalso
            have hmem := hminmem
            rw [← filterMap_price_of_filter] at hmem
            rcases List.mem_filterMap.mp hmem with ⟨d, hd, hdp⟩
            have := List.find?_eq_none.mp hf d hd
            rw [hdp] at this
            simp at this
        rcases hfind with ⟨d0, hd0⟩
        subst ha
        refine ⟨hminmem, ?_, rfl, hmaxmem, ?_, ?_, ?_⟩
        · intro q hq
          rw [hprices] at hq
          exact foldl_min_le ps p q hq
        · intro q hq
          rw [hprices] at hq
          exact le_foldl_max ps p q hq
        · dsimp only
          by_cases hlt : ps.foldl min p < ps.foldl max p
          · rw [if_pos hlt]
          · rw [if_neg hlt]
            have hle : ps.foldl min p ≤ ps.foldl max p :=
              le_trans (foldl_min_le ps p p (List.mem_cons_self _ _))
                (le_foldl_max ps p p (List.mem_cons_self _ _))
            have : ps.foldl min p = ps.foldl max p := le_antisymm hle (not_lt.mp hlt)
            rw [← this, sub_self]
        · refine ⟨d0, hd0, ?_⟩
          dsimp only
          rw [find?_price_of_filter, hd0]

/-- C2 witness: two parsed prices `100` and `150` in input order
Amazon-then-Flipkart; the analysis exists and its savings equal
`range_max - best_price`, instantiating the specification theorem. -/
theorem api_price_analysis_spec_witness :
    api_price_analysis
        [⟨"Amazon India", "phone", some 100⟩, ⟨"Flipkart", "phone", some 150⟩]
      = some ⟨100, "Amazon India", 100, 150, 50⟩
    ∧ (⟨100, "Amazon India", 100, 150, 50⟩ : PriceAnalysis).savings
        = (⟨100, "Amazon India", 100, 150, 50⟩ : PriceAnalysis).range_max
          - (⟨100, "Amazon India", 100, 150, 50⟩ : PriceAnalysis).best_price := by
  have heval : api_price_analysis
      [⟨"Amazon India", "phone", some 100⟩, ⟨"Flipkart", "phone", some 150⟩]
      = some ⟨100, "Amazon India", 100, 150, 50⟩ := by
    unfold api_price_analysis
    norm_num [List.filter, List.filterMap, List.find?]
  exact ⟨heval,
    ((api_price_analysis_spec
        [⟨"Amazon India", "phone", some 100⟩, ⟨"Flipkart", "phone", some 150⟩]).2
      ⟨100, "Amazon India", 100, 150, 50⟩ heval).2.2.2.2.2.1⟩

/-! ## `enhanced_detection.py`: signal fusion

Object-detector outputs are `{name, confidence}` records; Python float
confidences are exact rationals (`mkRat 3 10` is the threshold `0.3`,
`mkRat 7 10` the fixed caption confidence `0.7`). -/

/-- A YOLO detection record as consumed by `combine_detection_results`
(`detection.get('name', '')` and `detection.get('confidence', 0)`). -/
structure Detection where
  name : String
  confidence : ℚ
deriving DecidableEq

/-- A product identity dict appended by `combine_detection_results`. -/
structure Candidate where
  name : String
  confidence : ℚ
  category : String
  detection_method : String
deriving DecidableEq

/-- The `brand_info` dict of `extract_brand_info` (empty strings when
nothing was found, matching the Python initialisation). -/
structure BrandInfo where
  brand : String
  model : String
deriving DecidableEq

/-- The `self.product_categories` mapping, in dict insertion order. -/
def product_categories : List (String × List String) :=
  [("electronics", ["phone", "smartphone", "laptop", "computer", "tablet", "camera",
      "headphones", "speaker", "watch", "smartwatch", "tv", "monitor"]),
   ("clothing", ["shirt", "t-shirt", "dress", "pants", "jeans", "jacket", "coat",
      "shoes", "sneakers", "boots", "hat", "cap"]),
   ("home", ["chair", "table", "sofa", "bed", "lamp", "cushion", "pillow", "curtain",
      "rug", "vase", "clock"]),
   ("kitchen", ["bottle", "cup", "mug", "plate", "bowl", "spoon", "fork", "knife",
      "pot", "pan"]),
   ("sports", ["ball", "football", "basketball", "tennis", "racket", "bike",
      "bicycle", "weights", "dumbbells"]),
   ("books", ["book", "notebook", "journal", "magazine", "newspaper"]),
   ("toys", ["toy", "doll", "car", "truck", "puzzle", "game"]),
   ("beauty", ["perfume", "lipstick", "makeup", "brush", "mirror", "cream", "lotion"])]

/-- `categorize_product`: the first category (in dict order) one of whose
keywords occurs as a substring of the lowercased name; default `general`. -/
def categorize_product (product_name : String) : String :=
  let pn := pyLower product_name
  match product_categories.find? (fun kv => kv.2.any (fun kw => isSegmentOf kw pn)) with
  | some kv => kv.1
  | none => "general"

/-- `extract_products_from_caption`: keywords occurring as whole words of the
lowercased caption, deduplicated.  (Python returns `list(set(products))`
whose iteration order is unspecified; the fixed keyword lists contain no
duplicate keyword, so the scan produces no duplicates and the model keeps
scan order.) -/
def extract_products_from_caption (caption : String) : List String :=
  let caption_words := splitWords (pyLower caption)
  let products := product_categories.foldl (fun acc kv =>
    kv.2.foldl (fun acc2 kw => if kw ∈ caption_words then acc2 ++ [kw] else acc2) acc) []
  products.dedup

/-- A token matching `^[A-Z0-9]{2,}$` with `len(word) <= 10`, as tested by
`enhance_product_name`. -/
def isIdentifierToken (w : String) : Bool :=
  2 ≤ w.length && w.length ≤ 10 && w.toList.all (fun c => c.isUpper || c.isDigit)

/-- Python `str.strip()`: drop leading and trailing whitespace. -/
def pyStrip (s : String) : String :=
  String.mk (((s.toList.dropWhile (fun c => c.isWhitespace)).reverse.dropWhile
    (fun c => c.isWhitespace)).reverse)

/-- `enhance_product_name`: append each OCR token that looks like a model
number and is not yet a (case-insensitive) substring of the running name. -/
def enhance_product_name (base_name : String) (extracted_texts : List String) : String :=
  pyStrip (extracted_texts.foldl (fun acc t =>
    (splitWords t).foldl (fun acc2 w =>
      if isIdentifierToken w && !(isSegmentOf (pyLower w) (pyLower acc2)) then acc2 ++ " " ++ w
      else acc2) acc) base_name)

/-- The fixed `known_brands` list of `extract_brand_info`. -/
def known_brands : List String :=
  ["apple", "samsung", "sony", "lg", "nike", "adidas", "canon", "nikon",
   "hp", "dell", "lenovo", "asus", "acer", "microsoft", "google", "amazon",
   "xiaomi", "oppo", "vivo", "oneplus", "huawei", "realme", "nokia"]

/-- The brand found in one OCR fragment: the first entry of `known_brands`
that is a substring of the lowercased fragment (the inner
`for brand in known_brands: ... break` loop). -/
def brandIn (t : String) : Option String :=
  known_brands.find? (fun b => isSegmentOf b (pyLower t))

/-- A `\b`-delimited token of `[A-Z0-9]{3,10}`: a maximal word-character run
that is all uppercase-or-digit of length 3 to 10. -/
def isModelRun (r : String) : Bool :=
  3 ≤ r.length && r.length ≤ 10 && r.toList.all (fun c => c.isUpper || c.isDigit)

/-- `re.search(r'\b[A-Z0-9]{3,10}\b', text.upper())`: the first maximal word
run of the uppercased fragment qualifying as a model token. -/
def modelIn (t : String) : Option String := (wordRuns (pyUpper t)).find? isModelRun

/-- The fragment loop of `extract_brand_info`: a fragment containing a known
brand overwrites `brand` (no emptiness guard in the source), while `model` is
set only when still empty. -/
def extractBrandAux : List String → BrandInfo → BrandInfo
  | [], bi => bi
  | t :: rest, bi =>
    let bi1 : BrandInfo :=
      match brandIn t with
      | some b => ⟨pyTitle b, bi.model⟩
      | none => bi
    let bi2 : BrandInfo :=
      match modelIn t with
      | some m => if bi1.model = "" then ⟨bi1.brand, m⟩ else bi1
      | none => bi1
    extractBrandAux rest bi2

/-- `extract_brand_info` from `enhanced_detection.py`. -/
def extract_brand_info (extracted_texts : List String) : BrandInfo :=
  extractBrandAux extracted_texts ⟨"", ""⟩

/-- The YOLO loop of `combine_detection_results`: emit a candidate when the
confidence exceeds `0.3` and the lowercased name is unseen. -/
def yoloPhase (texts : List String) : List Detection → List String → List Candidate
  | [], _ => []
  | d :: ds, seen =>
    let pname := pyLower d.name
    if mkRat 3 10 < d.confidence ∧ pname ∉ seen then
      ⟨enhance_product_name pname texts, d.confidence, categorize_product pname, "YOLO"⟩
        :: yoloPhase texts ds (seen ++ [pname])
    else yoloPhase texts ds seen

/-- The `seen_products` set after the YOLO loop (insertion order kept). -/
def yoloSeen : List Detection → List String → List String
  | [], seen => seen
  | d :: ds, seen =>
    let pname := pyLower d.name
    if mkRat 3 10 < d.confidence ∧ pname ∉ seen then yoloSeen ds (seen ++ [pname])
    else yoloSeen ds seen

/-- The caption loop of `combine_detection_results`: emit unseen caption
keywords with the fixed confidence `0.7`. -/
def capPhase (texts : List String) : List String → List String → List Candidate
  | [], _ => []
  | p :: ps, seen =>
    if pyLower p ∉ seen then
      ⟨enhance_product_name p texts, mkRat 7 10, categorize_product p, "Image Caption"⟩
        :: capPhase texts ps (seen ++ [pyLower p])
    else capPhase texts ps seen

/-- The brand/model enrichment applied to every emitted candidate: the brand
is prepended and the model appended, each only when non-empty. -/
def enrichCand (bi : BrandInfo) (c : Candidate) : Candidate :=
  let n1 := if bi.brand ≠ "" then bi.brand ++ " " ++ c.name else c.name
  let n2 := if bi.model ≠ "" then n1 ++ " " ++ bi.model else n1
  { c with name := n2 }

/-- The candidate list of `combine_detection_results` before brand/model
enrichment: YOLO-derived candidates, then caption-derived ones (the caption
loop runs only for a non-empty caption). -/
def baseCands (yolo : List Detection) (caption : String) (texts : List String) :
    List Candidate :=
  let cands1 := yoloPhase texts yolo []
  let seen1 := yoloSeen yolo []
  let capProducts := if caption = "" then [] else extract_products_from_caption caption
  cands1 ++ capPhase texts capProducts seen1

/-- `combine_detection_results` from `enhanced_detection.py` (the final
`if brand_info:` test is always true — the dict is non-empty — so the
enrichment map always runs, guarded field-wise on non-emptiness). -/
def combine_detection_results (yolo : List Detection) (caption : String)
    (texts : List String) : List Candidate :=
  (baseCands yolo caption texts).map (enrichCand (extract_brand_info texts))

/-- A per-product entry of the `enhanced_results` list summarised by
`generate_analysis_summary`. -/
structure EnhancedResult where
  detected_name : String
  total_found : Nat
deriving DecidableEq

/-- `generate_analysis_summary` from `enhanced_detection.py`. -/
def generate_analysis_summary (enhanced_results : List EnhancedResult) : String :=
  match enhanced_results with
  | [] => "No products detected in the image."
  | rs =>
    let total_products := rs.length
    let total_search_results := (rs.map (fun r => r.total_found)).foldl (· + ·) 0
    let product_names := rs.map (fun r => r.detected_name)
    "Detected " ++ toString total_products ++ " product(s): "
      ++ String.intercalate ", " product_names ++ ". "
      ++ "Found " ++ toString total_search_results
      ++ " online shopping results across multiple platforms."

/-- Specification-side detection admission, written from the claim's words:
a detection is admitted exactly when its confidence strictly exceeds `0.3`
and its lowercased label was not admitted before. -/
def admittedDets : List Detection → List String → List Detection
  | [], _ => []
  | d :: ds, seen =>
    let l := pyLower d.name
    if mkRat 3 10 < d.confidence ∧ l ∉ seen then d :: admittedDets ds (seen ++ [l])
    else admittedDets ds seen

/-- The value produced by the last element of a list on which `f` fires
("later fragments overwrite earlier ones"). -/
def lastSome {α β : Type} (f : α → Option β) : List α → Option β
  | [] => none
  | a :: l =>
    match lastSome f l with
    | some b => some b
    | none => f a

/-- The value produced by the first element of a list on which `f` fires
("first match wins"). -/
def firstSome {α β : Type} (f : α → Option β) : List α → Option β
  | [] => none
  | a :: l =>
    match f a with
    | some b => some b
    | none => firstSome f l

theorem filterOfMap {α β : Type} (l : List α) (f : α → β) (p : β → Bool) :
    (l.map f).filter p = (l.filter (fun a => p (f a))).map f := by
  induction l with
  | nil => rfl
  | cons a t ih =>
    rw [List.map_cons, List.filter_cons, List.filter_cons]
    by_cases h : p (f a) = true
    · simp only [h, if_true, List.map_cons, ih]
    · simp only [Bool.not_eq_true] at h
      simp only [h, Bool.false_eq_true, if_false, ih]

theorem yoloPhase_filter_self (texts : List String) (ds : List Detection) :
    ∀ seen, (yoloPhase texts ds seen).filter (fun c => c.detection_method == "YOLO")
      = yoloPhase texts ds seen := by
  induction ds with
  | nil => intro seen; rfl
  | cons d rest ih =>
    intro seen
    rw [yoloPhase]
    by_cases h : mkRat 3 10 < d.confidence ∧ pyLower d.name ∉ seen
    · rw [if_pos h, List.filter_cons]
      simp only [ih]
      rfl
    · rw [if_neg h, ih]

theorem capPhase_filter_yolo (texts : List String) (ps : List String) :
    ∀ seen, (capPhase texts ps seen).filter (fun c => c.detection_method == "YOLO") = [] := by
  induction ps with
  | nil => intro seen; rfl
  | cons p rest ih =>
    intro seen
    rw [capPhase]
    by_cases h : pyLower p ∉ seen
    · rw [if_pos h, List.filter_cons]
      simp only [ih]
      rfl
    · rw [if_neg h, ih]

theorem yoloPhase_conf_admitted (texts : List String) (ds : List Detection) :
    ∀ seen, (yoloPhase texts ds seen).map (fun c => c.confidence)
      = (admittedDets ds seen).map (fun d => d.confidence) := by
  induction ds with
  | nil => intro seen; rfl
  | cons d rest ih =>
    intro seen
    rw [yoloPhase, admittedDets]
    by_cases h : mkRat 3 10 < d.confidence ∧ pyLower d.name ∉ seen
    · rw [if_pos h, if_pos h, List.map_cons, List.map_cons, ih]
    · rw [if_neg h, if_neg h, ih]

/-- C6.  Signal fusion emits a YOLO-derived candidate exactly for the
detections admitted by the claim's rule — confidence strictly above `0.3` and
lowercased label unseen — carrying the detector's confidence unchanged (the
emitted confidences equal the admitted detections' confidences, in order); a
detection at exactly `0.30` yields nothing and one at `0.31` is emitted with
confidence `0.31`. -/
theorem fusion_threshold_spec :
    (∀ (yolo : List Detection) (caption : String) (texts : List String),
      ((combine_detection_results yolo caption texts).filter
          (fun c => c.detection_method == "YOLO")).map (fun c => c.confidence)
        = (admittedDets yolo []).map (fun d => d.confidence))
    ∧ combine_detection_results [⟨"phone", mkRat 30 100⟩] "" [] = []
    ∧ (combine_detection_results [⟨"phone", mkRat 31 100⟩] "" []).map (fun c => c.confidence)
        = [mkRat 31 100] := by
  refine ⟨fun yolo caption texts => ?_, by decide, by decide⟩
  rw [combine_detection_results, filterOfMap]
  have hm : (fun c => ((enrichCand (extract_brand_info texts) c).detection_method == "YOLO"))
      = (fun c : Candidate => (c.detection_method == "YOLO")) := by
    funext c; rfl
  rw [hm, baseCands, List.filter_append, yoloPhase_filter_self, capPhase_filter_yolo,
    List.append_nil, List.map_map]
  have hc : ((fun c : Candidate => c.confidence) ∘ enrichCand (extract_brand_info texts))
      = (fun c : Candidate => c.confidence) := by
    funext c; rfl
  rw [hc, yoloPhase_conf_admitted]

theorem yoloPhase_below_threshold (texts : List String) (ds : List Detection) :
    ∀ seen, (∀ d ∈ ds, d.confidence ≤ mkRat 3 10) → yoloPhase texts ds seen = [] := by
  induction ds with
  | nil => intro seen _; rfl
  | cons d rest ih =>
    intro seen h
    rw [yoloPhase]
    have hd : ¬ (mkRat 3 10 < d.confidence ∧ pyLower d.name ∉ seen) := by
      intro hcon
      exact absurd hcon.1 (not_lt.mpr (h d (List.mem_cons_self _ _)))
    rw [if_neg hd]
    exact ih seen (fun x hx => h x (List.mem_cons_of_mem _ hx))

/-- C7.  With no detection above the `0.3` confidence floor, an empty caption
and no OCR text, signal fusion returns the empty candidate sequence (no
error), and the analysis summary of an empty result set is the fixed
"no products detected" sentence. -/
theorem fusion_empty_inputs_graceful (yolo : List Detection)
    (h : ∀ d ∈ yolo, d.confidence ≤ mkRat 3 10) :
    combine_detection_results yolo "" [] = []
    ∧ generate_analysis_summary [] = "No products detected in the image." := by
  refine ⟨?_, rfl⟩
  rw [combine_detection_results, baseCands, yoloPhase_below_threshold _ _ _ h]
  rfl

/-- C7 witness: a single detection at confidence `0.2` with empty caption and
no OCR text, instantiating the graceful-degradation theorem. -/
theorem fusion_empty_inputs_graceful_witness :
    combine_detection_results [⟨"phone", mkRat 2 10⟩] "" [] = []
    ∧ generate_analysis_summary [] = "No products detected in the image." :=
  fusion_empty_inputs_graceful [⟨"phone", mkRat 2 10⟩] (by decide)

theorem modelIn_ne_empty {t m : String} (h : modelIn t = some m) : ¬ m = "" := by
  intro he
  have hp := List.find?_some h
  rw [he] at hp
  exact absurd hp (by decide)

theorem extractBrandAux_spec (texts : List String) :
    ∀ bi : BrandInfo,
      extractBrandAux texts bi
        = ⟨(match lastSome brandIn texts with
            | some b => pyTitle b
            | none => bi.brand),
           (if bi.model = "" then (firstSome modelIn texts).getD "" else bi.model)⟩ := by
  induction texts with
  | nil =>
    intro bi
    obtain ⟨br, mo⟩ := bi
    by_cases h : mo = ""
    · simp [extractBrandAux, lastSome, firstSome, h]
    · simp [extractBrandAux, lastSome, firstSome, h]
  | cons t rest ih =>
    intro bi
    rw [extractBrandAux]
    rcases hb : brandIn t with _ | b
    · rcases hm : modelIn t with _ | m
      · simp only [hb, hm]
        rw [ih]
        cases hlast : lastSome brandIn rest <;>
          simp [lastSome, firstSome, hb, hm, hlast]
      · simp only [hb, hm]
        by_cases hmod : bi.model = ""
        · rw [if_pos hmod, ih]
          have hmne : ¬ m = "" := modelIn_ne_empty hm
          cases hlast : lastSome brandIn rest <;>
            simp [lastSome, firstSome, hb, hm, hlast, hmod, hmne]
        · rw [if_neg hmod, ih]
          cases hlast : lastSome brandIn rest <;>
            simp [lastSome, firstSome, hb, hm, hlast, hmod]
    · rcases hm : modelIn t with _ | m
      · simp only [hb, hm]
        rw [ih]
        cases hlast : lastSome brandIn rest <;>
          simp [lastSome, firstSome, hb, hm, hlast]
      · simp only [hb, hm]
        by_cases hmod : bi.model = ""
        · rw [if_pos hmod, ih]
          have hmne : ¬ m = "" := modelIn_ne_empty hm
          cases hlast : lastSome brandIn rest <;>
            simp [lastSome, firstSome, hb, hm, hlast, hmod, hmne]
        · rw [if_neg hmod, ih]
          cases hlast : lastSome brandIn rest <;>
            simp [lastSome, firstSome, hb, hm, hlast, hmod]

/-- C3 (amended).  Per full OCR scan at most one brand and one model are
extracted, but while the model comes from the **first** fragment containing a
qualifying `[A-Z0-9]{3,10}` token (an emptiness guard makes the first match
win), the brand comes from the **last** fragment containing a known brand —
each later match overwrites it (the source has no guard on `brand`), with the
earliest entry of the fixed brand list winning inside a fragment.  Every
already-emitted candidate's name is then enriched to `"{brand} {name}
{model}"`, the brand prepended and the model appended, each only if
non-empty. -/
theorem brand_model_extraction_amended :
    (∀ texts : List String,
      (extract_brand_info texts).brand
        = match lastSome brandIn texts with
          | some b => pyTitle b
          | none => "")
    ∧ (∀ texts : List String,
      (extract_brand_info texts).model = (firstSome modelIn texts).getD "")
    ∧ (∀ (yolo : List Detection) (caption : String) (texts : List String),
      (combine_detection_results yolo caption texts).map (fun c => c.name)
        = (baseCands yolo caption texts).map (fun c =>
            if (extract_brand_info texts).model ≠ ""
            then (if (extract_brand_info texts).brand ≠ ""
                  then (extract_brand_info texts).brand ++ " " ++ c.name
                  else c.name) ++ " " ++ (extract_brand_info texts).model
            else (if (extract_brand_info texts).brand ≠ ""
                  then (extract_brand_info texts).brand ++ " " ++ c.name
                  else c.name))) := by
  refine ⟨fun texts => ?_, fun texts => ?_, fun yolo caption texts => ?_⟩
  · rw [extract_brand_info, extractBrandAux_spec]
  · rw [extract_brand_info, extractBrandAux_spec]
    simp
  · rw [combine_detection_results, List.map_map]
    rfl

/-- C3 counterexample.  On the OCR fragments `["apple", "samsung"]` the first
fragment contains the known brand `apple`, so under the claim's
"first fragment wins" rule the extracted brand would be `"Apple"`; the code
returns `"Samsung"`, taken from the later fragment. -/
theorem brand_first_match_counterexample :
    brandIn "apple" = some "apple"
    ∧ pyTitle "apple" = "Apple"
    ∧ (extract_brand_info ["apple", "samsung"]).brand = "Samsung"
    ∧ ("Samsung" : String) ≠ "Apple" :=
  ⟨by decide, by decide, by decide, by decide⟩

end MarketGuru
